import Mathlib

/-!
Verification of the naive-bayes trainer and classifier (`src/lib.rs`).

The Rust code stores every model value as an `f64` of the form `log2 n`
for a natural number `n`: both the prior and each likelihood are computed
as an *integer* (truncating) division whose result is cast to `f64` and
passed to `log2`.  We therefore embed a score as the natural-number
argument of that logarithm (`Score := Nat`), with `0` standing for
`log2 0 = -infinity`:

* adding two such floats corresponds to multiplying the arguments
  (in every state the program reaches, one addend is `log2 1 = 0.0`,
  where float addition is exact, or `-infinity`, which is absorbing);
* `<` and `==` on the floats correspond to `<` and `=` on the arguments,
  since `log2` is strictly monotone on `0, 1, 2, ...` with `log2 0 = -inf`.

Rust `HashMap`s are embedded as association lists; `insert` updates the
binding in place when the key is present and appends it otherwise, so
iteration order is insertion order.  A Rust panic (integer division by
zero, indexing a map at an absent key) is embedded as `Option.none`.
-/

namespace NB

abbrev Class := String
abbrev Word := String

/-- A score is the natural-number argument `n` of the stored float `log2 n`;
`0` encodes `log2 0 = -infinity`. -/
abbrev Score := Nat

structure Document where
  «class» : Class
  text : String
deriving DecidableEq

/-- Helper for `Document::words`: collect maximal runs of non-whitespace
characters (`acc` holds the current run, reversed). -/
def wordsAux : List Char → List Char → List String
  | [], acc => if acc.isEmpty then [] else [String.mk acc.reverse]
  | c :: cs, acc =>
    if c.isWhitespace then
      if acc.isEmpty then wordsAux cs []
      else String.mk acc.reverse :: wordsAux cs []
    else wordsAux cs (c :: acc)

/-- `Document::words`: whitespace tokenization (`split_whitespace` yields the
maximal whitespace-free runs, no empty tokens). -/
def Document.words (d : Document) : List String :=
  wordsAux d.text.toList []

/-- `HashMap` lookup (`map[key]` / `get`), as first-match lookup in an
association list. -/
def mapLookup {α β : Type} [DecidableEq α] (m : List (α × β)) (k : α) : Option β :=
  match m with
  | [] => none
  | (k', v) :: rest => if k' = k then some v else mapLookup rest k

/-- `HashMap::insert`: replace the binding in place if the key is present,
otherwise append it. -/
def mapInsert {α β : Type} [DecidableEq α] (m : List (α × β)) (k : α) (v : β) :
    List (α × β) :=
  match m with
  | [] => [(k, v)]
  | (k', v') :: rest => if k' = k then (k, v) :: rest else (k', v') :: mapInsert rest k v

/-- `iter().filter(|w| *w == v).count()`. -/
def countOcc (ws : List Word) (v : Word) : Nat :=
  (ws.filter (fun w => w = v)).length

structure NaiveBayes where
  vocab : List Word
  classes : List Class
  log_prior : List (Class × Score)
  likelihood : List ((Class × Word) × Score)
deriving DecidableEq

/-- The per-class likelihood table built inside `NaiveBayes::new`:
for each vocabulary word, `(count + 1) / class_words_count` with truncating
`usize` division; dividing by `0` (a Rust panic) is `none`. -/
def likelihoodRow (c : Class) (class_documents_words : List Word)
    (class_words_count : Nat) : List Word → Option (List ((Class × Word) × Score))
  | [] => some []
  | word :: rest =>
    if class_words_count = 0 then none
    else
      match likelihoodRow c class_documents_words class_words_count rest with
      | none => none
      | some t =>
        some (((c, word), (countOcc class_documents_words word + 1) / class_words_count) :: t)

/-- The body of the per-class closure in `NaiveBayes::new`: filter the
documents of the class, flatten their words, sum the smoothed counts,
compute the prior `documents.len() / class_documents.len()` (truncating
division; the divide-by-zero panic is `none`), then the likelihood row. -/
def trainClass (documents : List Document) (vocab : List Word) (c : Class) :
    Option ((Class × Score) × List ((Class × Word) × Score)) :=
  let class_documents := documents.filter (fun doc => doc.«class» = c)
  let class_documents_words := (class_documents.map Document.words).flatten
  let class_words_count := (vocab.map (fun v => countOcc class_documents_words v + 1)).sum
  if class_documents.length = 0 then none
  else
    let log_prior : Score := documents.length / class_documents.length
    match likelihoodRow c class_documents_words class_words_count vocab with
    | none => none
    | some likelihood => some ((c, log_prior), likelihood)

/-- The `classes.iter().map(...)` pass of `NaiveBayes::new`, sequencing the
possible panics of each per-class computation. -/
def trainAll (documents : List Document) (vocab : List Word) :
    List Class → Option (List ((Class × Score) × List ((Class × Word) × Score)))
  | [] => some []
  | c :: rest =>
    match trainClass documents vocab c with
    | none => none
    | some r =>
      match trainAll documents vocab rest with
      | none => none
      | some t => some (r :: t)

/-- The `fold` at the end of `NaiveBayes::new`: insert the class prior and
extend the shared likelihood map with the per-class row. -/
def mergeResult (acc : List (Class × Score) × List ((Class × Word) × Score))
    (r : (Class × Score) × List ((Class × Word) × Score)) :
    List (Class × Score) × List ((Class × Word) × Score) :=
  (mapInsert acc.1 r.1.1 r.1.2, r.2.foldl (fun m kv => mapInsert m kv.1 kv.2) acc.2)

/-- `NaiveBayes::new`. -/
def NaiveBayes.new (documents : List Document) (classes : List Class)
    (vocab : List Word) : Option NaiveBayes :=
  match trainAll documents vocab classes with
  | none => none
  | some results =>
    let folded := results.foldl mergeResult ([], [])
    some { vocab := vocab, classes := classes,
           log_prior := folded.1, likelihood := folded.2 }

/-- `sum.iter().max_by(|(_, i), (_, j)| if i < j { Greater } else { Less })`:
the accumulator is kept exactly when the comparator says it is greater,
i.e. when its value is smaller, so the fold returns an entry of *minimum*
value (the last such entry). -/
def maxByScore (l : List (Class × Score)) : Option (Class × Score) :=
  l.foldl (fun acc x =>
    match acc with
    | none => some x
    | some a => if a.2 < x.2 then some a else some x) none

/-- One iteration of the inner loop of `guess`: if the word is in the
vocabulary, `sum.insert(class, sum[class] + likelihood[(class, word)])`;
a failed map index (Rust panic) is `none`.  Adding the stored floats is
multiplying the logarithm arguments. -/
def guessWord (nb : NaiveBayes) (c : Class) (sum : List (Class × Score))
    (word : Word) : Option (List (Class × Score)) :=
  if word ∈ nb.vocab then
    match mapLookup sum c, mapLookup nb.likelihood (c, word) with
    | some s, some l => some (mapInsert sum c (s * l))
    | _, _ => none
  else some sum

/-- The inner `for word in document.words()` loop of `guess`. -/
def guessWords (nb : NaiveBayes) (c : Class) :
    List (Class × Score) → List Word → Option (List (Class × Score))
  | sum, [] => some sum
  | sum, word :: rest =>
    match guessWord nb c sum word with
    | none => none
    | some sum' => guessWords nb c sum' rest

/-- The outer `for class in self.classes.iter()` loop of `guess`. -/
def guessClasses (nb : NaiveBayes) (d : Document) :
    List (Class × Score) → List Class → Option (List (Class × Score))
  | sum, [] => some sum
  | sum, c :: rest =>
    match guessWords nb c sum d.words with
    | none => none
    | some sum' => guessClasses nb d sum' rest

/-- `NaiveBayes::guess`: accumulate scores, take `max_by` with the reversed
comparator over the accumulated map, then `map_while` over `self.log_prior`
collecting classes while the *prior* equals that extremal value. -/
def NaiveBayes.guess (nb : NaiveBayes) (document : Document) :
    Option (List Class) :=
  match guessClasses nb document nb.log_prior nb.classes with
  | none => none
  | some sum =>
    match maxByScore sum with
    | none => some []
    | some m =>
      some ((nb.log_prior.takeWhile (fun kv => kv.2 = m.2)).map Prod.fst)

/-- `count(v, c)`: occurrences of `v` across all training documents labeled
`c` (spec §4.1 step 3; identical to the count taken inside `trainClass`). -/
def count (documents : List Document) (c : Class) (v : Word) : Nat :=
  countOcc (((documents.filter (fun doc => doc.«class» = c)).map Document.words).flatten) v

/-- `class_word_total(c) = Σ_v (count(v,c) + 1)` (spec §4.1 step 4). -/
def class_word_total (documents : List Document) (vocab : List Word)
    (c : Class) : Nat :=
  (vocab.map (fun v => count documents c v + 1)).sum

/-- The score of one class as the spec describes inference (§4.2 steps 1-3):
start from the log-prior of the class and add the log-likelihood of every
in-vocabulary token (in the `Score` encoding, multiply the arguments).
Comparison definition for the claims about the argmax policy. -/
def specScore (nb : NaiveBayes) (d : Document) (c : Class) : Score :=
  ((d.words.filter (fun w => w ∈ nb.vocab)).map
    (fun w => (mapLookup nb.likelihood (c, w)).getD 0)).foldl (· * ·)
    ((mapLookup nb.log_prior c).getD 0)

/-- The classifier as the spec describes it (§4.2 steps 4-5): every class
whose score equals the maximum score.  Comparison definition for the claims
about the argmax policy. -/
def specClassify (nb : NaiveBayes) (d : Document) : List Class :=
  let best := (nb.classes.map (specScore nb d)).foldl max 0
  nb.classes.filter (fun c => specScore nb d c = best)

/-! ### Association-list lemmas -/

theorem mapLookup_mapInsert {α β : Type} [DecidableEq α] (m : List (α × β)) (k k' : α) (v : β) :
    mapLookup (mapInsert m k v) k' = if k' = k then some v else mapLookup m k' := by
  induction m with
  | nil =>
    by_cases h : k' = k
    · subst h; simp [mapInsert, mapLookup]
    · simp [mapInsert, mapLookup, h, Ne.symm h]
  | cons p rest ih =>
    obtain ⟨k₀, v₀⟩ := p
    by_cases h₀ : k₀ = k
    · subst h₀
      by_cases h : k' = k₀
      · subst h; simp [mapInsert, mapLookup]
      · simp [mapInsert, mapLookup, h, Ne.symm h]
    · by_cases h : k' = k
      · subst h; simp [mapInsert, mapLookup, h₀, Ne.symm h₀, ih]
      · simp [mapInsert, mapLookup, h₀, h, ih]

theorem mapLookup_append_left {α β : Type} [DecidableEq α] (l₁ l₂ : List (α × β))
    (k : α) (v : β) (h : mapLookup l₁ k = some v) :
    mapLookup (l₁ ++ l₂) k = some v := by
  induction l₁ with
  | nil => simp [mapLookup] at h
  | cons p rest ih =>
    obtain ⟨k₀, v₀⟩ := p
    by_cases hk : k₀ = k
    · simp [mapLookup, hk] at h ⊢; exact h
    · simp [mapLookup, hk] at h ⊢; exact ih h

theorem mapLookup_append_right {α β : Type} [DecidableEq α] (l₁ l₂ : List (α × β))
    (k : α) (h : mapLookup l₁ k = none) :
    mapLookup (l₁ ++ l₂) k = mapLookup l₂ k := by
  induction l₁ with
  | nil => simp
  | cons p rest ih =>
    obtain ⟨k₀, v₀⟩ := p
    by_cases hk : k₀ = k
    · simp [mapLookup, hk] at h
    · simp [mapLookup, hk] at h ⊢; exact ih h

theorem mapLookup_eq_none_of_forall_ne {α β : Type} [DecidableEq α]
    (m : List (α × β)) (k : α) (h : ∀ p ∈ m, p.1 ≠ k) :
    mapLookup m k = none := by
  induction m with
  | nil => rfl
  | cons p rest ih =>
    obtain ⟨k₀, v₀⟩ := p
    have hk : k₀ ≠ k := h (k₀, v₀) (by simp)
    simp [mapLookup, hk]
    exact ih (fun q hq => h q (by simp [hq]))

theorem mapInsert_of_forall_ne {α β : Type} [DecidableEq α]
    (m : List (α × β)) (k : α) (v : β) (h : ∀ p ∈ m, p.1 ≠ k) :
    mapInsert m k v = m ++ [(k, v)] := by
  induction m with
  | nil => rfl
  | cons p rest ih =>
    obtain ⟨k₀, v₀⟩ := p
    have hk : k₀ ≠ k := h (k₀, v₀) (by simp)
    simp [mapInsert, hk]
    exact ih (fun q hq => h q (by simp [hq]))

theorem foldl_mapInsert_append {α β : Type} [DecidableEq α] (l : List (α × β)) :
    ∀ m : List (α × β), (l.map Prod.fst).Nodup →
      (∀ p ∈ l, ∀ q ∈ m, q.1 ≠ p.1) →
      l.foldl (fun acc kv => mapInsert acc kv.1 kv.2) m = m ++ l := by
  induction l with
  | nil => intro m _ _; simp
  | cons p rest ih =>
    intro m hnd hdisj
    rw [List.map_cons] at hnd
    have hndc := List.nodup_cons.mp hnd
    have hstep : mapInsert m p.1 p.2 = m ++ [p] := by
      rw [mapInsert_of_forall_ne m p.1 p.2 (fun q hq => hdisj p (by simp) q hq)]
    have hdisj' : ∀ p' ∈ rest, ∀ q ∈ m ++ [p], q.1 ≠ p'.1 := by
      intro p' hp' q hq
      rcases List.mem_append.mp hq with hq | hq
      · exact hdisj p' (by simp [hp']) q hq
      · have hq' : q = p := by simpa using hq
        subst hq'
        intro heq
        exact hndc.1 (by rw [heq]; exact List.mem_map_of_mem Prod.fst hp')
    rw [List.foldl_cons, hstep, ih (m ++ [p]) hndc.2 hdisj']
    simp

/-! ### Characterizing the training pass -/

theorem class_word_total_ge (documents : List Document) (vocab : List Word) (c : Class) :
    vocab.length ≤ class_word_total documents vocab c := by
  unfold class_word_total
  induction vocab with
  | nil => simp
  | cons v rest ih =>
    simp only [List.map_cons, List.sum_cons, List.length_cons]
    omega

theorem likelihoodRow_eq (c : Class) (cdw : List Word) (cwc : Nat) (h : cwc ≠ 0) :
    ∀ ws : List Word, likelihoodRow c cdw cwc ws =
      some (ws.map (fun w => ((c, w), (countOcc cdw w + 1) / cwc))) := by
  intro ws
  induction ws with
  | nil => rfl
  | cons w rest ih => simp [likelihoodRow, h, ih]

theorem trainClass_eq_some (documents : List Document) (vocab : List Word) (c : Class)
    (h : (documents.filter (fun doc => doc.«class» = c)).length ≠ 0) :
    trainClass documents vocab c = some
      ((c, documents.length / (documents.filter (fun doc => doc.«class» = c)).length),
       vocab.map (fun w =>
         ((c, w), (count documents c w + 1) / class_word_total documents vocab c))) := by
  by_cases hv : vocab = []
  · subst hv
    simp [trainClass, likelihoodRow, h]
  · have hpos : (vocab.map (fun v =>
        countOcc (((documents.filter (fun doc => doc.«class» = c)).map Document.words).flatten)
          v + 1)).sum ≠ 0 := by
      have h1 := class_word_total_ge documents vocab c
      have h2 : 0 < vocab.length := List.length_pos.mpr hv
      simp only [class_word_total, count] at h1
      omega
    simp only [trainClass]
    rw [if_neg h, likelihoodRow_eq _ _ _ hpos vocab]
    simp only [count, class_word_total]

theorem trainClass_eq_none (documents : List Document) (vocab : List Word) (c : Class)
    (h : (documents.filter (fun doc => doc.«class» = c)).length = 0) :
    trainClass documents vocab c = none := by
  simp [trainClass, h]

theorem trainAll_eq_some (documents : List Document) (vocab : List Word) :
    ∀ cs : List Class,
      (∀ c ∈ cs, (documents.filter (fun doc => doc.«class» = c)).length ≠ 0) →
      trainAll documents vocab cs = some (cs.map (fun c =>
        ((c, documents.length / (documents.filter (fun doc => doc.«class» = c)).length),
         vocab.map (fun w =>
           ((c, w), (count documents c w + 1) / class_word_total documents vocab c))))) := by
  intro cs
  induction cs with
  | nil => intro _; rfl
  | cons c rest ih =>
    intro h
    simp [trainAll, trainClass_eq_some documents vocab c (h c (by simp)),
      ih (fun c' hc' => h c' (by simp [hc']))]

theorem trainAll_eq_none (documents : List Document) (vocab : List Word) (c : Class)
    (h : (documents.filter (fun doc => doc.«class» = c)).length = 0) :
    ∀ cs : List Class, c ∈ cs → trainAll documents vocab cs = none := by
  intro cs
  induction cs with
  | nil => intro hmem; cases hmem
  | cons c₀ rest ih =>
    intro hmem
    rcases List.mem_cons.mp hmem with heq | hmem'
    · subst heq; simp [trainAll, trainClass_eq_none documents vocab c h]
    · cases htc : trainClass documents vocab c₀ with
      | none => simp [trainAll, htc]
      | some r => simp [trainAll, htc, ih hmem']

theorem new_nonzero_of_some (documents : List Document) (classes : List Class)
    (vocab : List Word) (nb : NaiveBayes)
    (h : NaiveBayes.new documents classes vocab = some nb) :
    ∀ c ∈ classes, (documents.filter (fun doc => doc.«class» = c)).length ≠ 0 := by
  intro c hc h0
  unfold NaiveBayes.new at h
  rw [trainAll_eq_none documents vocab c h0 classes hc] at h
  simp at h

theorem foldl_mergeResult (g : Class → (Class × Score) × List ((Class × Word) × Score))
    (hgkey : ∀ c, (g c).1.1 = c)
    (hrowkey : ∀ c, ∀ q ∈ (g c).2, q.1.1 = c)
    (hrownd : ∀ c, ((g c).2.map Prod.fst).Nodup) :
    ∀ (cs : List Class) (acc : List (Class × Score) × List ((Class × Word) × Score)),
      cs.Nodup →
      (∀ c ∈ cs, ∀ q ∈ acc.1, q.1 ≠ c) →
      (∀ c ∈ cs, ∀ q ∈ acc.2, q.1.1 ≠ c) →
      (cs.map g).foldl mergeResult acc =
        (acc.1 ++ cs.map (fun c => (g c).1), acc.2 ++ cs.flatMap (fun c => (g c).2)) := by
  intro cs
  induction cs with
  | nil => intro acc _ _ _; simp
  | cons c rest ih =>
    intro acc hnd h1 h2
    have hndc := List.nodup_cons.mp hnd
    have hstep : mergeResult acc (g c) = (acc.1 ++ [(g c).1], acc.2 ++ (g c).2) := by
      unfold mergeResult
      have e1 : mapInsert acc.1 (g c).1.1 (g c).1.2 = acc.1 ++ [(g c).1] := by
        rw [mapInsert_of_forall_ne acc.1 (g c).1.1 (g c).1.2
          (fun q hq => by rw [hgkey c]; exact h1 c (by simp) q hq)]
      have e2 : (g c).2.foldl (fun m kv => mapInsert m kv.1 kv.2) acc.2 = acc.2 ++ (g c).2 := by
        refine foldl_mapInsert_append (g c).2 acc.2 (hrownd c) ?_
        intro p hp q hq heq
        exact h2 c (by simp) q hq (by rw [heq, hrowkey c p hp])
      rw [e1, e2]
    have h1' : ∀ c' ∈ rest, ∀ q ∈ acc.1 ++ [(g c).1], q.1 ≠ c' := by
      intro c' hc' q hq
      rcases List.mem_append.mp hq with hq | hq
      · exact h1 c' (by simp [hc']) q hq
      · have hq' : q = (g c).1 := by simpa using hq
        subst hq'
        rw [hgkey c]
        intro heq
        exact hndc.1 (by rw [heq]; exact hc')
    have h2' : ∀ c' ∈ rest, ∀ q ∈ acc.2 ++ (g c).2, q.1.1 ≠ c' := by
      intro c' hc' q hq
      rcases List.mem_append.mp hq with hq | hq
      · exact h2 c' (by simp [hc']) q hq
      · rw [hrowkey c q hq]
        intro heq
        exact hndc.1 (by rw [heq]; exact hc')
    rw [List.map_cons, List.foldl_cons, hstep, ih (acc.1 ++ [(g c).1], acc.2 ++ (g c).2)
      hndc.2 h1' h2']
    simp [List.flatMap_cons]

/-- The trained model in closed form: after a successful `NaiveBayes::new`
with duplicate-free classes and vocabulary, the prior map binds every class
to `N / N_c` (truncating division) in class order, and the likelihood map
binds every `(class, word)` pair to `(count + 1) / class_word_total`
(truncating division) in class-major, vocabulary order. -/
theorem new_eq_explicit (documents : List Document) (classes : List Class) (vocab : List Word)
    (hc : classes.Nodup) (hv : vocab.Nodup)
    (h : ∀ c ∈ classes, (documents.filter (fun doc => doc.«class» = c)).length ≠ 0) :
    NaiveBayes.new documents classes vocab = some
      { vocab := vocab, classes := classes,
        log_prior := classes.map (fun c =>
          (c, documents.length / (documents.filter (fun doc => doc.«class» = c)).length)),
        likelihood := classes.flatMap (fun c => vocab.map (fun w =>
          ((c, w), (count documents c w + 1) / class_word_total documents vocab c))) } := by
  unfold NaiveBayes.new
  rw [trainAll_eq_some documents vocab classes h]
  have hfold := foldl_mergeResult
    (fun c =>
      ((c, documents.length / (documents.filter (fun doc => doc.«class» = c)).length),
       vocab.map (fun w =>
         ((c, w), (count documents c w + 1) / class_word_total documents vocab c))))
    (fun c => rfl)
    (fun c q hq => by
      simp only [List.mem_map] at hq
      obtain ⟨w, _, hw⟩ := hq
      rw [← hw])
    (fun c => by
      rw [List.map_map]
      exact hv.map (fun w w' hww => by simpa using hww))
    classes ([], []) hc (by simp) (by simp)
  simp only [List.nil_append] at hfold
  simp only [hfold]

/-! ### Lookups in the closed-form model -/

theorem mapLookup_map_pair {α β : Type} [DecidableEq α] (f : α → β) :
    ∀ (cs : List α) (c : α), c ∈ cs →
      mapLookup (cs.map (fun x => (x, f x))) c = some (f c) := by
  intro cs
  induction cs with
  | nil => intro c hc; cases hc
  | cons c₀ rest ih =>
    intro c hc
    by_cases h : c₀ = c
    · subst h; simp [mapLookup]
    · rcases List.mem_cons.mp hc with heq | hmem
      · exact absurd heq.symm h
      · simp [mapLookup, h, ih c hmem]

theorem mapLookup_row_self (c : Class) (g : Word → Score) :
    ∀ (vs : List Word) (w : Word), w ∈ vs →
      mapLookup (vs.map (fun w => ((c, w), g w))) (c, w) = some (g w) := by
  intro vs
  induction vs with
  | nil => intro w hw; cases hw
  | cons w₀ rest ih =>
    intro w hw
    by_cases h : w₀ = w
    · subst h; simp [mapLookup]
    · rcases List.mem_cons.mp hw with heq | hmem
      · exact absurd heq.symm h
      · simp [mapLookup, h, ih w hmem]

theorem mapLookup_row_ne (c₀ c : Class) (w : Word) (g : Word → Score) (h : c₀ ≠ c) :
    ∀ vs : List Word, mapLookup (vs.map (fun w => ((c₀, w), g w))) (c, w) = none := by
  intro vs
  induction vs with
  | nil => rfl
  | cons w₀ rest ih => simp [mapLookup, h, ih]

theorem mapLookup_flatMap_product (g : Class → Word → Score) (vs : List Word) :
    ∀ (cs : List Class) (c : Class) (w : Word), c ∈ cs → w ∈ vs →
      mapLookup (cs.flatMap (fun c => vs.map (fun w => ((c, w), g c w)))) (c, w) =
        some (g c w) := by
  intro cs
  induction cs with
  | nil => intro c w hc _; cases hc
  | cons c₀ rest ih =>
    intro c w hc hw
    rw [List.flatMap_cons]
    by_cases h : c₀ = c
    · subst h
      exact mapLookup_append_left _ _ _ _ (mapLookup_row_self c₀ (g c₀) vs w hw)
    · rw [mapLookup_append_right _ _ _ (mapLookup_row_ne c₀ c w (g c₀) h vs)]
      rcases List.mem_cons.mp hc with heq | hmem
      · exact absurd heq.symm h
      · exact ih c w hmem hw

/-! ### The shape of the likelihood key set -/

theorem likelihood_keys_eq (g : Class → Word → Score) (cs : List Class) (vs : List Word) :
    (cs.flatMap (fun c => vs.map (fun w => ((c, w), g c w)))).map Prod.fst
      = cs.flatMap (fun c => vs.map (fun w => (c, w))) := by
  simp only [List.map_flatMap, List.map_map]
  rfl

theorem product_keys_nodup (cs : List Class) (vs : List Word)
    (hc : cs.Nodup) (hv : vs.Nodup) :
    (cs.flatMap (fun c => vs.map (fun w => (c, w)))).Nodup := by
  rw [List.nodup_flatMap]
  constructor
  · intro c _
    exact hv.map (fun w w' hww => by simpa using hww)
  · refine hc.imp ?_
    intro a b hab x hxa hxb
    simp only [List.mem_map] at hxa hxb
    obtain ⟨w1, _, hw1⟩ := hxa
    obtain ⟨w2, _, hw2⟩ := hxb
    apply hab
    have : (a, w1) = (b, w2) := by rw [hw1, hw2]
    exact congrArg Prod.fst this

theorem mem_product_keys (cs : List Class) (vs : List Word) (c : Class) (w : Word) :
    (c, w) ∈ cs.flatMap (fun c => vs.map (fun w => (c, w))) ↔ c ∈ cs ∧ w ∈ vs := by
  simp only [List.mem_flatMap, List.mem_map, Prod.mk.injEq]
  constructor
  · rintro ⟨a, ha, w', hw', heq1, heq2⟩
    subst heq1; subst heq2
    exact ⟨ha, hw'⟩
  · rintro ⟨hc, hw⟩
    exact ⟨c, hc, w, hw, rfl, rfl⟩

theorem product_length (cs : List Class) (vs : List Word) (g : Class → Word → Score) :
    (cs.flatMap (fun c => vs.map (fun w => ((c, w), g c w)))).length
      = cs.length * vs.length := by
  induction cs with
  | nil => simp
  | cons c rest ih =>
    simp only [List.flatMap_cons, List.length_append, List.length_map, List.length_cons, ih]
    ring

/-! ### Totality of `guess` on trained models -/

theorem mapLookup_isSome_mapInsert {α β : Type} [DecidableEq α]
    (m : List (α × β)) (k k' : α) (v : β) (h : (mapLookup m k').isSome) :
    (mapLookup (mapInsert m k v) k').isSome := by
  rw [mapLookup_mapInsert]
  by_cases hk : k' = k <;> simp [hk, h]

theorem guessWords_some (nb : NaiveBayes) (c : Class) :
    ∀ (ws : List Word) (sum : List (Class × Score)),
      (mapLookup sum c).isSome →
      (∀ w ∈ ws, w ∈ nb.vocab → (mapLookup nb.likelihood (c, w)).isSome) →
      ∃ sum', guessWords nb c sum ws = some sum' ∧
        ∀ k, (mapLookup sum k).isSome → (mapLookup sum' k).isSome := by
  intro ws
  induction ws with
  | nil => intro sum _ _; exact ⟨sum, rfl, fun _ h => h⟩
  | cons w rest ih =>
    intro sum hsum hlik
    by_cases hw : w ∈ nb.vocab
    · obtain ⟨s, hs⟩ := Option.isSome_iff_exists.mp hsum
      obtain ⟨l, hl⟩ := Option.isSome_iff_exists.mp (hlik w (by simp) hw)
      have hstep : guessWord nb c sum w = some (mapInsert sum c (s * l)) := by
        unfold guessWord
        rw [if_pos hw, hs, hl]
      have hsum' : (mapLookup (mapInsert sum c (s * l)) c).isSome :=
        mapLookup_isSome_mapInsert sum c c (s * l) hsum
      obtain ⟨sum', h1, h2⟩ := ih (mapInsert sum c (s * l)) hsum'
        (fun w' hw' => hlik w' (by simp [hw']))
      refine ⟨sum', ?_, fun k hk => h2 k (mapLookup_isSome_mapInsert sum c k (s * l) hk)⟩
      unfold guessWords
      rw [hstep]
      exact h1
    · have hstep : guessWord nb c sum w = some sum := by
        unfold guessWord
        rw [if_neg hw]
      obtain ⟨sum', h1, h2⟩ := ih sum hsum (fun w' hw' => hlik w' (by simp [hw']))
      refine ⟨sum', ?_, h2⟩
      unfold guessWords
      rw [hstep]
      exact h1

theorem guessClasses_some (nb : NaiveBayes) (d : Document) :
    ∀ (cs : List Class) (sum : List (Class × Score)),
      (∀ c ∈ cs, (mapLookup sum c).isSome) →
      (∀ c ∈ cs, ∀ w ∈ d.words, w ∈ nb.vocab → (mapLookup nb.likelihood (c, w)).isSome) →
      ∃ sum', guessClasses nb d sum cs = some sum' := by
  intro cs
  induction cs with
  | nil => intro sum _ _; exact ⟨sum, rfl⟩
  | cons c rest ih =>
    intro sum hsum hlik
    obtain ⟨sum', h1, h2⟩ := guessWords_some nb c d.words sum (hsum c (by simp))
      (fun w hw hwv => hlik c (by simp) w hw hwv)
    obtain ⟨sum'', h3⟩ := ih sum' (fun c' hc' => h2 c' (hsum c' (by simp [hc'])))
      (fun c' hc' => hlik c' (by simp [hc']))
    refine ⟨sum'', ?_⟩
    unfold guessClasses
    rw [h1]
    exact h3

theorem guess_isSome_of_keys (nb : NaiveBayes) (d : Document)
    (hP : ∀ c ∈ nb.classes, (mapLookup nb.log_prior c).isSome)
    (hL : ∀ c ∈ nb.classes, ∀ w, w ∈ nb.vocab →
      (mapLookup nb.likelihood (c, w)).isSome) :
    (nb.guess d).isSome = true := by
  obtain ⟨sum', hsum'⟩ := guessClasses_some nb d nb.classes nb.log_prior hP
    (fun c hc w _ hwv => hL c hc w hwv)
  rcases hmax : maxByScore sum' with _ | m <;>
    simp [NaiveBayes.guess, hsum', hmax]

/-! ### The claims -/

/-- Claim C1 (refuted; code bug): the spec requires `guess` to return exactly
the classes whose accumulated score is maximal.  On the training set
`c1: "w"`, `c1: "w"`, `c2: "w"` with vocabulary `{w}`, the accumulated scores
for document `"w"` are `log2 1 = 0` for `c1` and `log2 3` for `c2` (encoded
as arguments `1` and `3`), so the spec argmax set is `{c2}` — as
`specClassify` computes — but `guess` returns `["c1"]`: its reversed
comparator finds the *minimum* score, and its `map_while` collects the
prefix of the *prior* map equal to that minimum. -/
theorem c1_guess_not_argmax :
    ∃ nb, NaiveBayes.new [⟨"c1", "w"⟩, ⟨"c1", "w"⟩, ⟨"c2", "w"⟩]
        ["c1", "c2"] ["w"] = some nb ∧
      nb.guess ⟨"", "w"⟩ = some ["c1"] ∧
      specClassify nb ⟨"", "w"⟩ = ["c2"] :=
  ⟨NaiveBayes.mk ["w"] ["c1", "c2"] [("c1", 1), ("c2", 3)]
    [(("c1", "w"), 1), (("c2", "w"), 1)], by decide, by decide, by decide⟩

/-- Claim C2 (confirmed): after a successful training run, the likelihood
stored for a class `c` and vocabulary word `v` is (the `log2` of)
`(count(v,c) + 1) / class_word_total(c)`, with `class_word_total(c) =
Σ_v (count(v,c) + 1)`, using the truncating natural division of the code. -/
theorem c2_likelihood_formula (documents : List Document) (classes : List Class)
    (vocab : List Word) (nb : NaiveBayes) (c : Class) (v : Word)
    (hc : classes.Nodup) (hv : vocab.Nodup)
    (hnew : NaiveBayes.new documents classes vocab = some nb)
    (hcm : c ∈ classes) (hvm : v ∈ vocab) :
    mapLookup nb.likelihood (c, v) =
      some ((count documents c v + 1) / class_word_total documents vocab c) := by
  have h := new_nonzero_of_some documents classes vocab nb hnew
  rw [new_eq_explicit documents classes vocab hc hv h] at hnew
  have hnb := Option.some.inj hnew
  subst hnb
  exact mapLookup_flatMap_product
    (fun c w => (count documents c w + 1) / class_word_total documents vocab c)
    vocab classes c v hcm hvm

theorem c2_likelihood_formula_witness :
    mapLookup (NaiveBayes.mk ["a", "b"] ["c"] [("c", 1)]
        [(("c", "a"), 0), (("c", "b"), 0)]).likelihood ("c", "a") =
      some ((count [⟨"c", "a"⟩] "c" "a" + 1) /
        class_word_total [⟨"c", "a"⟩] ["a", "b"] "c") :=
  c2_likelihood_formula [⟨"c", "a"⟩] ["c"] ["a", "b"] _ "c" "a"
    (by decide) (by decide) rfl (by decide) (by decide)

/-- Claim C3 (refuted; code bug): the smoothing floor of the spec says the
quantity whose `log2` is stored is strictly positive, so no stored
likelihood is `-infinity`.  Because the code divides with truncating
integer division, training `c: "a"` over vocabulary `{a, b}` stores
`(0 + 1) / 3 = 0` for `(c, b)`, i.e. `log2 0 = -infinity`
(`Score` value `0` encodes `-infinity`). -/
theorem c3_stored_likelihood_neg_infinity :
    ∃ nb, NaiveBayes.new [⟨"c", "a"⟩] ["c"] ["a", "b"] = some nb ∧
      mapLookup nb.likelihood ("c", "b") = some 0 :=
  ⟨NaiveBayes.mk ["a", "b"] ["c"] [("c", 1)]
    [(("c", "a"), 0), (("c", "b"), 0)], by decide, by decide⟩

/-- Claim C4 (confirmed): the stored log-prior of a class with at least one
training document is (the `log2` of) the truncating integer quotient
`N / N_c` of the total document count by the document count of the class. -/
theorem c4_log_prior_formula (documents : List Document) (classes : List Class)
    (vocab : List Word) (nb : NaiveBayes) (c : Class)
    (hc : classes.Nodup) (hv : vocab.Nodup)
    (hnew : NaiveBayes.new documents classes vocab = some nb)
    (hcm : c ∈ classes)
    (hpos : 0 < (documents.filter (fun doc => doc.«class» = c)).length) :
    mapLookup nb.log_prior c =
      some (documents.length /
        (documents.filter (fun doc => doc.«class» = c)).length) := by
  have h := new_nonzero_of_some documents classes vocab nb hnew
  rw [new_eq_explicit documents classes vocab hc hv h] at hnew
  have hnb := Option.some.inj hnew
  subst hnb
  exact mapLookup_map_pair
    (fun c => documents.length / (documents.filter (fun doc => doc.«class» = c)).length)
    classes c hcm

theorem c4_log_prior_formula_witness :
    mapLookup (NaiveBayes.mk ["a"] ["c"] [("c", 1)]
        [(("c", "a"), 1)]).log_prior "c" =
      some ((([⟨"c", "a"⟩] : List Document)).length /
        (([⟨"c", "a"⟩] : List Document).filter (fun doc => doc.«class» = "c")).length) :=
  c4_log_prior_formula [⟨"c", "a"⟩] ["c"] ["a"] _ "c"
    (by decide) (by decide) rfl (by decide) (by decide)

/-- Claim C5 (refuted; code bug): in the end-to-end scenario of the spec
(vocabulary `{good, bad}`, training docs `pos: "good good"`, `neg: "bad bad"`)
classifying `"good"` must select `pos` and classifying `"bad"` must select
`neg`.  In the code every likelihood quotient truncates to `0`
(`-infinity`), every accumulated score becomes `-infinity`, and the
`map_while` over the prior map (whose values are `log2 2`, encoded `2`,
not `-infinity`, encoded `0`) stops immediately: both calls return the
empty list and select nothing. -/
theorem c5_end_to_end_scenario_empty :
    ∃ nb, NaiveBayes.new [⟨"pos", "good good"⟩, ⟨"neg", "bad bad"⟩]
        ["pos", "neg"] ["good", "bad"] = some nb ∧
      nb.guess ⟨"", "good"⟩ = some [] ∧
      nb.guess ⟨"", "bad"⟩ = some [] :=
  ⟨NaiveBayes.mk ["good", "bad"] ["pos", "neg"] [("pos", 2), ("neg", 2)]
    [(("pos", "good"), 0), (("pos", "bad"), 0), (("neg", "good"), 0), (("neg", "bad"), 0)],
    by decide, by decide, by decide⟩

/-- Claim C6 (confirmed): if some supplied class has zero training
documents, training fails fast — the division in the prior
`documents.len() / class_documents.len()` divides by zero, a Rust panic,
embedded as `none` — instead of producing NaN or infinite priors. -/
theorem c6_degenerate_class_fails (documents : List Document) (classes : List Class)
    (vocab : List Word) (c : Class) (hcm : c ∈ classes)
    (h0 : (documents.filter (fun doc => doc.«class» = c)).length = 0) :
    NaiveBayes.new documents classes vocab = none := by
  unfold NaiveBayes.new
  rw [trainAll_eq_none documents vocab c h0 classes hcm]

theorem c6_degenerate_class_fails_witness :
    NaiveBayes.new [⟨"d", "x"⟩] ["c", "d"] ["x"] = none :=
  c6_degenerate_class_fails [⟨"d", "x"⟩] ["c", "d"] ["x"] "c"
    (by decide) (by decide)

/-- Claim C7 (refuted): the spec requires an empty vocabulary to be rejected
as a validation error before training begins.  The code performs no such
validation: with vocabulary `{}` and training document `c: "x"`, training
completes and returns a model (with an empty likelihood table) — the feared
division by `class_word_total = 0` is never executed because the likelihood
map ranges over the empty vocabulary. -/
theorem c7_empty_vocab_not_rejected_cex :
    NaiveBayes.new [⟨"c", "x"⟩] ["c"] [] =
      some (NaiveBayes.mk [] ["c"] [("c", 1)] []) :=
  rfl

/-- Claim C7 as amended: with an empty vocabulary, training is *not*
rejected: whenever every class has at least one training document it
succeeds end to end, producing a model whose likelihood table is empty;
no failure or undefined value arises partway through. -/
theorem c7_empty_vocab_trains (documents : List Document) (classes : List Class)
    (hc : classes.Nodup)
    (h : ∀ c ∈ classes, (documents.filter (fun doc => doc.«class» = c)).length ≠ 0) :
    ∃ nb, NaiveBayes.new documents classes [] = some nb ∧ nb.likelihood = [] := by
  refine ⟨_, new_eq_explicit documents classes [] hc (by simp) h, ?_⟩
  simp

theorem c7_empty_vocab_trains_witness :
    ∃ nb, NaiveBayes.new [⟨"c", "x"⟩] ["c"] [] = some nb ∧ nb.likelihood = [] :=
  c7_empty_vocab_trains [⟨"c", "x"⟩] ["c"] (by decide) (by decide)

/-- Claim C8 (confirmed): training with an empty class set always succeeds,
and classifying any document with the resulting model returns the empty
list without failing: the score map is empty, `max_by` returns `None`, and
`guess` returns `Vec::new()`. -/
theorem c8_guess_empty_classes (documents : List Document) (vocab : List Word)
    (d : Document) :
    (NaiveBayes.new documents [] vocab).bind (fun nb => nb.guess d) = some [] :=
  rfl

/-- Claim C9 (confirmed): after a successful training run the likelihood
table is fully dense: its key set is exactly `classes × vocab`, each key
occurs exactly once, and the table has `|classes| * |vocab|` entries. -/
theorem c9_likelihood_dense (documents : List Document) (classes : List Class)
    (vocab : List Word) (nb : NaiveBayes)
    (hc : classes.Nodup) (hv : vocab.Nodup)
    (hnew : NaiveBayes.new documents classes vocab = some nb) :
    (∀ c w, (c, w) ∈ nb.likelihood.map Prod.fst ↔ c ∈ classes ∧ w ∈ vocab) ∧
    (nb.likelihood.map Prod.fst).Nodup ∧
    nb.likelihood.length = classes.length * vocab.length := by
  have h := new_nonzero_of_some documents classes vocab nb hnew
  rw [new_eq_explicit documents classes vocab hc hv h] at hnew
  have hnb := Option.some.inj hnew
  subst hnb
  dsimp only
  rw [likelihood_keys_eq]
  exact ⟨fun c w => mem_product_keys classes vocab c w,
    product_keys_nodup classes vocab hc hv,
    product_length classes vocab _⟩

theorem c9_likelihood_dense_witness :
    (∀ c w, (c, w) ∈ (NaiveBayes.mk ["a", "b"] ["c"] [("c", 1)]
        [(("c", "a"), 0), (("c", "b"), 0)]).likelihood.map Prod.fst ↔
      c ∈ (["c"] : List Class) ∧ w ∈ (["a", "b"] : List Word)) ∧
    ((NaiveBayes.mk ["a", "b"] ["c"] [("c", 1)]
        [(("c", "a"), 0), (("c", "b"), 0)]).likelihood.map Prod.fst).Nodup ∧
    (NaiveBayes.mk ["a", "b"] ["c"] [("c", 1)]
        [(("c", "a"), 0), (("c", "b"), 0)]).likelihood.length =
      (["c"] : List Class).length * (["a", "b"] : List Word).length :=
  c9_likelihood_dense [⟨"c", "a"⟩] ["c"] ["a", "b"] _
    (by decide) (by decide) rfl

/-- Claim C10 (confirmed): on any model produced by `NaiveBayes::new`,
`guess` never indexes a map at an absent key: every class is bound in the
prior map and every `(class, in-vocabulary token)` pair is bound in the
likelihood map, so `guess` always returns a value (no embedded panic). -/
theorem c10_guess_total (documents : List Document) (classes : List Class)
    (vocab : List Word) (nb : NaiveBayes) (d : Document)
    (hc : classes.Nodup) (hv : vocab.Nodup)
    (hnew : NaiveBayes.new documents classes vocab = some nb) :
    (nb.guess d).isSome = true := by
  have h := new_nonzero_of_some documents classes vocab nb hnew
  rw [new_eq_explicit documents classes vocab hc hv h] at hnew
  have hnb := Option.some.inj hnew
  subst hnb
  refine guess_isSome_of_keys _ d ?_ ?_
  · intro c hcm
    have := mapLookup_map_pair
      (fun c => documents.length / (documents.filter (fun doc => doc.«class» = c)).length)
      classes c hcm
    rw [show (NaiveBayes.mk vocab classes
        (classes.map (fun c =>
          (c, documents.length / (documents.filter (fun doc => doc.«class» = c)).length)))
        (classes.flatMap (fun c => vocab.map (fun w =>
          ((c, w), (count documents c w + 1) / class_word_total documents vocab c))))).log_prior
      = classes.map (fun c =>
          (c, documents.length / (documents.filter (fun doc => doc.«class» = c)).length))
      from rfl, this]
    rfl
  · intro c hcm w hwv
    have := mapLookup_flatMap_product
      (fun c w => (count documents c w + 1) / class_word_total documents vocab c)
      vocab classes c w hcm hwv
    rw [show (NaiveBayes.mk vocab classes
        (classes.map (fun c =>
          (c, documents.length / (documents.filter (fun doc => doc.«class» = c)).length)))
        (classes.flatMap (fun c => vocab.map (fun w =>
          ((c, w), (count documents c w + 1) / class_word_total documents vocab c))))).likelihood
      = classes.flatMap (fun c => vocab.map (fun w =>
          ((c, w), (count documents c w + 1) / class_word_total documents vocab c)))
      from rfl, this]
    rfl

theorem c10_guess_total_witness :
    ((NaiveBayes.mk ["a"] ["c"] [("c", 1)] [(("c", "a"), 1)]).guess
      ⟨"", "a"⟩).isSome = true :=
  c10_guess_total [⟨"c", "a"⟩] ["c"] ["a"] _ ⟨"", "a"⟩
    (by decide) (by decide) rfl

end NB
